import Mathlib

/-!
Verification of the extensive-form Liapunov equilibrium module (`eliap.cc`)
and the rectangular-array container (`grarray.h`) of the Gambit repository.

Shallow embedding conventions:
* `double` arithmetic is modelled by exact rationals `ℚ`.
* External collaborators (the game's `CondPayoff` computation, the Powell
  minimizer, the uniform random source) are modelled as explicit inputs:
  conditional payoffs are part of the data handed to the objective, the
  minimizer is an oracle assigning to every attempt index an outcome, and
  the random source is a finite stream of draws.
* Fallible operations (C++ `throw` / `assert`) return `Option` / `Except`.
-/

/-- One information set as seen by `EFLiapFunc::Value`: the list of
`(probability, conditional payoff)` pairs of its actions, in action order.
The probability entries are the contents of the wrapped profile `_p` after
the input vector has been copied in; the payoff entries are the values the
external `CondPayoff` computation produced for this profile. -/
structure LiapInfoset where
  acts : List (ℚ × ℚ)
deriving DecidableEq

/-- Weight of the negative-probability penalty (`BIG1` in `EFLiapFunc::Value`). -/
def BIG1 : ℚ := 10000

/-- Weight of the normalization penalty (`BIG2` in `EFLiapFunc::Value`). -/
def BIG2 : ℚ := 100

/-- Body of the first `for (k ...)` loop of `EFLiapFunc::Value`: given the
running `(avg, sum, result)` accumulator and one action's
`(probability, conditional payoff)` pair, accumulate the probability-weighted
payoff into `avg`, the probability into `sum`, and the negative-probability
penalty `BIG1 * x * x` (with `x` clamped to `0` when positive) into `result`. -/
def liapStep1 (acc : ℚ × ℚ × ℚ) (a : ℚ × ℚ) : ℚ × ℚ × ℚ :=
  let x := a.1
  let x2 := if x > 0 then 0 else x
  (acc.1 + x * a.2, acc.2.1 + x, acc.2.2 + BIG1 * x2 * x2)

/-- Body of the second `for (k ...)` loop of `EFLiapFunc::Value`: add the
best-response penalty `x * x` for `x = cpay - avg` clamped below at `0`. -/
def liapStep2 (avg : ℚ) (r : ℚ) (a : ℚ × ℚ) : ℚ :=
  let x := a.2 - avg
  let x2 := if x < 0 then 0 else x
  r + x2 * x2

/-- Body of the per-infoset `for (j ...)` loop of `EFLiapFunc::Value`:
run both action loops over the infoset and add the normalization penalty
`BIG2 * (sum - 1) * (sum - 1)`. -/
def liapInfosetStep (r0 : ℚ) (s : LiapInfoset) : ℚ :=
  let acc := s.acts.foldl liapStep1 (0, 0, r0)
  let r2 := s.acts.foldl (liapStep2 acc.1) acc.2.2
  let x := acc.2.1 - 1
  r2 + BIG2 * x * x

/-- The double loop over players and information sets of `EFLiapFunc::Value`,
accumulating `result` from `0.0`.  The argument lists the players, each
player being the list of their information sets. -/
def liapValue (g : List (List LiapInfoset)) : ℚ :=
  g.foldl (fun r pl => pl.foldl liapInfosetStep r) 0

/-- `EFLiapFunc::Value` incl. the `_nevals++` side effect: state-passing
version taking the current `_nevals` counter and the profile-with-payoffs
data, returning the new counter and the objective value. -/
def EFLiapFuncValue (nevals : Nat) (g : List (List LiapInfoset)) : Nat × ℚ :=
  (nevals + 1, liapValue g)

/-! Spec-side penalty terms, written from the words of the specification. -/

/-- Spec wording: "for each action with probability x, 10000 times x squared
when x < 0 (0 otherwise)". -/
def negProbPenalty (x : ℚ) : ℚ := if x < 0 then 10000 * x * x else 0

/-- Spec wording: the infoset's probability-weighted average conditional
payoff, i.e. the sum over actions of probability times conditional payoff. -/
def avgPayoff (s : LiapInfoset) : ℚ := (s.acts.map (fun a => a.1 * a.2)).sum

/-- Sum of the infoset's action probabilities. -/
def probSum (s : LiapInfoset) : ℚ := (s.acts.map (fun a => a.1)).sum

/-- Spec wording: "the square of max(0, conditional payoff of the action
minus the probability-weighted average conditional payoff of the infoset)". -/
def brPenalty (s : LiapInfoset) : ℚ :=
  (s.acts.map (fun a => max 0 (a.2 - avgPayoff s) * max 0 (a.2 - avgPayoff s))).sum

/-- Spec wording: the three penalty terms of one information set:
negative-probability penalties, suboptimality penalties, and 100 times the
square of (sum of action probabilities minus 1). -/
def infosetPenalty (s : LiapInfoset) : ℚ :=
  (s.acts.map (fun a => negProbPenalty a.1)).sum + brPenalty s +
    100 * (probSum s - 1) * (probSum s - 1)

/-- Claim-side total: the sum, over every player and every information set
of that player, of the three penalty terms. -/
def totalPenalty (g : List (List LiapInfoset)) : ℚ :=
  (g.map (fun pl => (pl.map infosetPenalty).sum)).sum

/-! Characterization lemmas for the imperative accumulation loops. -/

lemma liapStep1_foldl (l : List (ℚ × ℚ)) : ∀ a s r : ℚ,
    l.foldl liapStep1 (a, s, r) =
      (a + (l.map (fun p => p.1 * p.2)).sum, s + (l.map (fun p => p.1)).sum,
       r + (l.map (fun p => negProbPenalty p.1)).sum) := by
  induction l with
  | nil => intro a s r; simp
  | cons hd tl ih =>
    intro a s r
    simp only [List.foldl_cons, List.map_cons, List.sum_cons, liapStep1]
    rw [ih]
    refine Prod.ext ?_ (Prod.ext ?_ ?_) <;> simp only [negProbPenalty, BIG1]
    · ring
    · ring
    · by_cases h : hd.1 > 0
      · have hn : ¬ hd.1 < 0 := by linarith
        simp only [if_pos h, if_neg hn]
        ring
      · by_cases h0 : hd.1 < 0
        · simp only [if_neg h, if_pos h0]; ring
        · have h1 : hd.1 = 0 := le_antisymm (not_lt.mp h) (not_lt.mp h0)
          rw [h1]
          norm_num

lemma liapStep2_foldl (avg : ℚ) (l : List (ℚ × ℚ)) : ∀ r : ℚ,
    l.foldl (liapStep2 avg) r =
      r + (l.map (fun p => max 0 (p.2 - avg) * max 0 (p.2 - avg))).sum := by
  induction l with
  | nil => intro r; simp
  | cons hd tl ih =>
    intro r
    simp only [List.foldl_cons, List.map_cons, List.sum_cons, liapStep2]
    rw [ih]
    have hmax : (if hd.2 - avg < 0 then (0 : ℚ) else hd.2 - avg) = max 0 (hd.2 - avg) := by
      by_cases h : hd.2 - avg < 0
      · rw [if_pos h, max_eq_left h.le]
      · rw [if_neg h, max_eq_right (not_lt.mp h)]
    rw [hmax]; ring

lemma liapInfosetStep_eq (r0 : ℚ) (s : LiapInfoset) :
    liapInfosetStep r0 s = r0 + infosetPenalty s := by
  unfold liapInfosetStep
  simp only [liapStep1_foldl, liapStep2_foldl]
  simp only [infosetPenalty, brPenalty, avgPayoff, probSum, BIG2, zero_add]
  ring

lemma liapValue_player_foldl (pl : List LiapInfoset) : ∀ r : ℚ,
    pl.foldl liapInfosetStep r = r + (pl.map infosetPenalty).sum := by
  induction pl with
  | nil => intro r; simp
  | cons hd tl ih =>
    intro r
    simp only [List.foldl_cons, List.map_cons, List.sum_cons]
    rw [ih, liapInfosetStep_eq]; ring

lemma liapValue_eq_totalPenalty (g : List (List LiapInfoset)) :
    liapValue g = totalPenalty g := by
  unfold liapValue totalPenalty
  suffices h : ∀ r : ℚ, g.foldl (fun r pl => pl.foldl liapInfosetStep r) r =
      r + (g.map (fun pl => (pl.map infosetPenalty).sum)).sum by
    simpa using h 0
  induction g with
  | nil => intro r; simp
  | cons hd tl ih =>
    intro r
    simp only [List.foldl_cons, List.map_cons, List.sum_cons]
    rw [ih, liapValue_player_foldl]; ring

/-- C1: For every input vector copied into the wrapped profile (together
with the conditional payoffs the external computation produced for it), the
value returned by `EFLiapFunc::Value` equals the sum, over every player and
every information set of that player, of the three penalty terms: the
negative-probability penalty `10000 * x * x` for `x < 0` (0 otherwise), the
squared clamped suboptimality `max 0 (cpay - weighted average)` squared, and
`100` times the square of (sum of the infoset's action probabilities minus 1). -/
theorem liap_value_is_penalty_sum (nevals : Nat) (g : List (List LiapInfoset)) :
    (EFLiapFuncValue nevals g).2 = totalPenalty g := by
  simpa [EFLiapFuncValue] using liapValue_eq_totalPenalty g

/-- An information set is a valid, sequentially-best-responding distribution:
all action probabilities are non-negative, they sum to 1, and no action's
conditional payoff exceeds the probability-weighted average. -/
def liapValid (s : LiapInfoset) : Prop :=
  (∀ a ∈ s.acts, 0 ≤ a.1) ∧ probSum s = 1 ∧ (∀ a ∈ s.acts, a.2 ≤ avgPayoff s)

lemma map_sum_nonneg {α : Type} (l : List α) (f : α → ℚ) (h : ∀ x ∈ l, 0 ≤ f x) :
    0 ≤ (l.map f).sum := by
  induction l with
  | nil => simp
  | cons hd tl ih =>
    simp only [List.map_cons, List.sum_cons]
    have h1 := h hd (List.mem_cons_self hd tl)
    have h2 := ih (fun x hx => h x (List.mem_cons_of_mem hd hx))
    linarith

lemma map_sum_eq_zero_iff {α : Type} (l : List α) (f : α → ℚ) (h : ∀ x ∈ l, 0 ≤ f x) :
    (l.map f).sum = 0 ↔ ∀ x ∈ l, f x = 0 := by
  induction l with
  | nil => simp
  | cons hd tl ih =>
    simp only [List.map_cons, List.sum_cons, List.mem_cons]
    have h1 := h hd (List.mem_cons_self hd tl)
    have h2 := map_sum_nonneg tl f (fun x hx => h x (List.mem_cons_of_mem hd hx))
    constructor
    · intro h0
      have hhd : f hd = 0 := by linarith
      have htl : (tl.map f).sum = 0 := by linarith
      intro x hx
      rcases hx with hx | hx
      · rw [hx]; exact hhd
      · exact (ih (fun x hx => h x (List.mem_cons_of_mem hd hx))).mp htl x hx
    · intro h0
      rw [h0 hd (Or.inl rfl),
        (ih (fun x hx => h x (List.mem_cons_of_mem hd hx))).mpr
          (fun x hx => h0 x (Or.inr hx))]
      ring

lemma negProbPenalty_nonneg (x : ℚ) : 0 ≤ negProbPenalty x := by
  unfold negProbPenalty
  by_cases h : x < 0
  · rw [if_pos h]; nlinarith [mul_self_nonneg x]
  · rw [if_neg h]

lemma negProbPenalty_eq_zero_iff (x : ℚ) : negProbPenalty x = 0 ↔ 0 ≤ x := by
  unfold negProbPenalty
  by_cases h : x < 0
  · rw [if_pos h]
    constructor
    · intro h0; nlinarith [mul_pos (neg_pos.mpr h) (neg_pos.mpr h)]
    · intro h0; linarith
  · rw [if_neg h]
    exact iff_of_true rfl (not_lt.mp h)

lemma maxSq_nonneg (y : ℚ) : 0 ≤ max 0 y * max 0 y :=
  mul_nonneg (le_max_left 0 y) (le_max_left 0 y)

lemma maxSq_eq_zero_iff (y : ℚ) : max 0 y * max 0 y = 0 ↔ y ≤ 0 := by
  rw [mul_self_eq_zero]
  exact sup_eq_left

lemma normSq_nonneg (t : ℚ) : 0 ≤ 100 * t * t := by nlinarith [mul_self_nonneg t]

lemma normSq_eq_zero_iff (t : ℚ) : 100 * t * t = 0 ↔ t = 0 := by
  constructor
  · intro h
    by_contra hne
    rcases lt_or_gt_of_ne hne with hlt | hgt
    · nlinarith [mul_pos (neg_pos.mpr hlt) (neg_pos.mpr hlt)]
    · nlinarith [mul_pos hgt hgt]
  · intro h; rw [h]; ring

lemma infosetPenalty_nonneg (s : LiapInfoset) : 0 ≤ infosetPenalty s := by
  unfold infosetPenalty brPenalty
  have h1 := map_sum_nonneg s.acts (fun a => negProbPenalty a.1)
    (fun a _ => negProbPenalty_nonneg a.1)
  have h2 := map_sum_nonneg s.acts
    (fun a => max 0 (a.2 - avgPayoff s) * max 0 (a.2 - avgPayoff s))
    (fun a _ => maxSq_nonneg _)
  have h3 := normSq_nonneg (probSum s - 1)
  linarith

lemma infosetPenalty_eq_zero_iff (s : LiapInfoset) :
    infosetPenalty s = 0 ↔ liapValid s := by
  unfold infosetPenalty brPenalty liapValid
  have h1 := map_sum_nonneg s.acts (fun a => negProbPenalty a.1)
    (fun a _ => negProbPenalty_nonneg a.1)
  have h2 := map_sum_nonneg s.acts
    (fun a => max 0 (a.2 - avgPayoff s) * max 0 (a.2 - avgPayoff s))
    (fun a _ => maxSq_nonneg _)
  have h3 := normSq_nonneg (probSum s - 1)
  constructor
  · intro h0
    have e1 : (s.acts.map (fun a => negProbPenalty a.1)).sum = 0 := by linarith
    have e2 : (s.acts.map
        (fun a => max 0 (a.2 - avgPayoff s) * max 0 (a.2 - avgPayoff s))).sum = 0 := by
      linarith
    have e3 : 100 * (probSum s - 1) * (probSum s - 1) = 0 := by linarith
    refine ⟨fun a ha => ?_, ?_, fun a ha => ?_⟩
    · exact (negProbPenalty_eq_zero_iff a.1).mp
        ((map_sum_eq_zero_iff s.acts _ (fun a _ => negProbPenalty_nonneg a.1)).mp e1 a ha)
    · have := (normSq_eq_zero_iff (probSum s - 1)).mp e3
      linarith [sub_eq_zero.mp this]
    · have := (map_sum_eq_zero_iff s.acts _
        (fun a _ => maxSq_nonneg (a.2 - avgPayoff s))).mp e2 a ha
      have := (maxSq_eq_zero_iff (a.2 - avgPayoff s)).mp this
      linarith
  · rintro ⟨hp, hsum, hbr⟩
    have e1 : (s.acts.map (fun a => negProbPenalty a.1)).sum = 0 :=
      (map_sum_eq_zero_iff s.acts _ (fun a _ => negProbPenalty_nonneg a.1)).mpr
        (fun a ha => (negProbPenalty_eq_zero_iff a.1).mpr (hp a ha))
    have e2 : (s.acts.map
        (fun a => max 0 (a.2 - avgPayoff s) * max 0 (a.2 - avgPayoff s))).sum = 0 :=
      (map_sum_eq_zero_iff s.acts _ (fun a _ => maxSq_nonneg _)).mpr
        (fun a ha => (maxSq_eq_zero_iff _).mpr (by linarith [hbr a ha]))
    have e3 : 100 * (probSum s - 1) * (probSum s - 1) = 0 := by
      rw [hsum]; ring
    rw [e1, e2, e3]
    ring

lemma totalPenalty_nonneg (g : List (List LiapInfoset)) : 0 ≤ totalPenalty g := by
  unfold totalPenalty
  exact map_sum_nonneg g _ (fun pl _ =>
    map_sum_nonneg pl _ (fun s _ => infosetPenalty_nonneg s))

lemma totalPenalty_eq_zero_iff (g : List (List LiapInfoset)) :
    totalPenalty g = 0 ↔ ∀ pl ∈ g, ∀ s ∈ pl, liapValid s := by
  unfold totalPenalty
  rw [map_sum_eq_zero_iff g _ (fun pl _ =>
    map_sum_nonneg pl _ (fun s _ => infosetPenalty_nonneg s))]
  constructor
  · intro h pl hpl s hs
    exact (infosetPenalty_eq_zero_iff s).mp
      ((map_sum_eq_zero_iff pl _ (fun s _ => infosetPenalty_nonneg s)).mp (h pl hpl) s hs)
  · intro h pl hpl
    exact (map_sum_eq_zero_iff pl _ (fun s _ => infosetPenalty_nonneg s)).mpr
      (fun s hs => (infosetPenalty_eq_zero_iff s).mpr (h pl hpl s hs))

/-- C2: For every input, the Liapunov objective value is at least 0, and it
is exactly 0 if and only if at every information set of every player all
action probabilities are non-negative and sum to 1 and no action's
conditional payoff exceeds the probability-weighted average conditional
payoff — i.e. the zero level set is exactly the valid, sequentially
best-responding profiles (Nash equilibria within the fixed support). -/
theorem liap_value_nonneg_and_zero_iff_nash (g : List (List LiapInfoset)) :
    0 ≤ liapValue g ∧ (liapValue g = 0 ↔ ∀ pl ∈ g, ∀ s ∈ pl, liapValid s) := by
  rw [liapValue_eq_totalPenalty]
  exact ⟨totalPenalty_nonneg g, totalPenalty_eq_zero_iff g⟩

/-! `PickRandomProfile` (eliap.cc).  The global `Uniform()` source is
modelled as a finite stream (list) of draws consumed left to right. -/

/-- The `do tmp = Uniform(); while (tmp + sum > 1.0);` loop: walk the
stream, discarding every draw that would push the running sum over 1, and
return the first accepted draw together with the unused rest of the stream
(`none` when the finite stream model is exhausted). -/
def drawAccept (sum : ℚ) : List ℚ → Option (ℚ × List ℚ)
  | [] => none
  | t :: rest => if t + sum > 1 then drawAccept sum rest else some (t, rest)

/-- The `for (act = 1; act < NumActions(pl, iset); act++)` loop of
`PickRandomProfile` for one information set: `n` accepted draws, each
accumulated into the running sum; returns the drawn probabilities, the
final running sum, and the unused rest of the stream. -/
def pickActs : Nat → ℚ → List ℚ → Option (List ℚ × ℚ × List ℚ)
  | 0, sum, stream => some ([], sum, stream)
  | n + 1, sum, stream =>
    match drawAccept sum stream with
    | none => none
    | some (t, rest) =>
      match pickActs n (sum + t) rest with
      | none => none
      | some (ds, s, st) => some (t :: ds, s, st)

/-- One information set of `PickRandomProfile`: `numActions - 1` accepted
uniform draws followed by the final complement `p(pl, iset, act) = 1.0 - sum`. -/
def pickInfoset (numActions : Nat) (stream : List ℚ) : Option (List ℚ × List ℚ) :=
  match pickActs (numActions - 1) 0 stream with
  | none => none
  | some (ds, sum, rest) => some (ds ++ [1 - sum], rest)

/-- The `for (iset ...)` loop of `PickRandomProfile` over one player's
information sets; `shape` lists the support's `NumActions` of each infoset. -/
def pickPlayer : List Nat → List ℚ → Option (List (List ℚ) × List ℚ)
  | [], stream => some ([], stream)
  | n :: rest, stream =>
    match pickInfoset n stream with
    | none => none
    | some (probs, st) =>
      match pickPlayer rest st with
      | none => none
      | some (ps, st2) => some (probs :: ps, st2)

/-- `PickRandomProfile`: the loop over all players (outer `for (pl ...)`). -/
def PickRandomProfile : List (List Nat) → List ℚ → Option (List (List (List ℚ)) × List ℚ)
  | [], stream => some ([], stream)
  | shape :: rest, stream =>
    match pickPlayer shape stream with
    | none => none
    | some (pl, st) =>
      match PickRandomProfile rest st with
      | none => none
      | some (pls, st2) => some (pl :: pls, st2)

lemma drawAccept_spec : ∀ (stream : List ℚ) (sum t : ℚ) (rest : List ℚ),
    drawAccept sum stream = some (t, rest) →
    t ∈ stream ∧ t + sum ≤ 1 ∧ (∀ x ∈ rest, x ∈ stream) := by
  intro stream
  induction stream with
  | nil => intro sum t rest h; simp [drawAccept] at h
  | cons hd tl ih =>
    intro sum t rest h
    by_cases hc : hd + sum > 1
    · simp only [drawAccept, if_pos hc] at h
      obtain ⟨h1, h2, h3⟩ := ih sum t rest h
      exact ⟨List.mem_cons_of_mem hd h1, h2,
        fun x hx => List.mem_cons_of_mem hd (h3 x hx)⟩
    · simp only [drawAccept, if_neg hc, Option.some.injEq, Prod.mk.injEq] at h
      obtain ⟨ht, hrest⟩ := h
      subst ht; subst hrest
      exact ⟨List.mem_cons_self _ _, not_lt.mp hc,
        fun x hx => List.mem_cons_of_mem _ hx⟩

lemma pickActs_spec : ∀ (n : Nat) (sum : ℚ) (stream ds : List ℚ) (s : ℚ) (st : List ℚ),
    (∀ x ∈ stream, 0 ≤ x ∧ x < 1) → 0 ≤ sum → sum ≤ 1 →
    pickActs n sum stream = some (ds, s, st) →
    ds.length = n ∧ s = sum + ds.sum ∧ (∀ d ∈ ds, 0 ≤ d ∧ d ≤ 1) ∧
      0 ≤ s ∧ s ≤ 1 ∧ (∀ x ∈ st, x ∈ stream) := by
  intro n
  induction n with
  | zero =>
    intro sum stream ds s st hstream h0 h1 h
    simp only [pickActs, Option.some.injEq, Prod.mk.injEq] at h
    obtain ⟨hds, hs, hst⟩ := h
    subst hds; subst hs; subst hst
    exact ⟨rfl, by simp, by simp, h0, h1, fun x hx => hx⟩
  | succ m ih =>
    intro sum stream ds s st hstream h0 h1 h
    simp only [pickActs] at h
    split at h
    · exact absurd h (by simp)
    next t rest hda =>
      split at h
      · exact absurd h (by simp)
      next ds2 s2 st2 hpa =>
        simp only [Option.some.injEq, Prod.mk.injEq] at h
        obtain ⟨hds, hs, hst⟩ := h
        subst hds; subst hs; subst hst
        obtain ⟨htmem, hts, hrest⟩ := drawAccept_spec stream sum t rest hda
        obtain ⟨ht0, ht1⟩ := hstream t htmem
        have hrest2 : ∀ x ∈ rest, 0 ≤ x ∧ x < 1 := fun x hx => hstream x (hrest x hx)
        obtain ⟨hlen, hsum2, hall, hs0, hs1, hsub⟩ :=
          ih (sum + t) rest ds2 s2 st2 hrest2 (by linarith) (by linarith) hpa
        refine ⟨by simp [hlen], by rw [List.sum_cons, hsum2]; ring, ?_, hs0, hs1,
          fun x hx => hrest x (hsub x hx)⟩
        intro d hd
        rcases List.mem_cons.mp hd with hd | hd
        · subst hd; exact ⟨ht0, by linarith⟩
        · exact hall d hd

lemma pickInfoset_spec (numActions : Nat) (stream probs rest : List ℚ)
    (hstream : ∀ x ∈ stream, 0 ≤ x ∧ x < 1) (hn : 1 ≤ numActions)
    (h : pickInfoset numActions stream = some (probs, rest)) :
    probs.length = numActions ∧ (∀ p ∈ probs, 0 ≤ p ∧ p ≤ 1) ∧ probs.sum = 1 ∧
      probs.getLast? = some (1 - probs.dropLast.sum) ∧ (∀ x ∈ rest, x ∈ stream) := by
  simp only [pickInfoset] at h
  split at h
  · exact absurd h (by simp)
  next ds sum st hpa =>
    simp only [Option.some.injEq, Prod.mk.injEq] at h
    obtain ⟨hprobs, hrest⟩ := h
    subst hprobs; subst hrest
    obtain ⟨hlen, hsum, hall, hs0, hs1, hsub⟩ :=
      pickActs_spec (numActions - 1) 0 stream ds sum st hstream le_rfl zero_le_one hpa
    refine ⟨?_, ?_, ?_, ?_, hsub⟩
    · rw [List.length_append, hlen]
      simp
      omega
    · intro p hp
      rcases List.mem_append.mp hp with hp | hp
      · exact hall p hp
      · simp only [List.mem_singleton] at hp
        subst hp
        constructor <;> linarith
    · rw [List.sum_append, List.sum_singleton, hsum]
      ring
    · rw [List.getLast?_concat, List.dropLast_concat, hsum]
      rw [zero_add]

lemma pickPlayer_spec : ∀ (shape : List Nat) (stream : List ℚ)
    (ps : List (List ℚ)) (st : List ℚ),
    (∀ x ∈ stream, 0 ≤ x ∧ x < 1) → (∀ n ∈ shape, 1 ≤ n) →
    pickPlayer shape stream = some (ps, st) →
    (∀ probs ∈ ps, (∀ p ∈ probs, 0 ≤ p ∧ p ≤ 1) ∧ probs.sum = 1 ∧
      probs.getLast? = some (1 - probs.dropLast.sum)) ∧ (∀ x ∈ st, x ∈ stream) := by
  intro shape
  induction shape with
  | nil =>
    intro stream ps st hstream _ h
    simp only [pickPlayer, Option.some.injEq, Prod.mk.injEq] at h
    obtain ⟨hps, hst⟩ := h
    subst hps; subst hst
    exact ⟨by simp, fun x hx => hx⟩
  | cons n rest ih =>
    intro stream ps st hstream hshape h
    simp only [pickPlayer] at h
    split at h
    · exact absurd h (by simp)
    next probs st1 hpi =>
      split at h
      · exact absurd h (by simp)
      next ps2 st2 hpp =>
        simp only [Option.some.injEq, Prod.mk.injEq] at h
        obtain ⟨hps, hst⟩ := h
        subst hps; subst hst
        obtain ⟨_, hall, hsum, hlast, hsub⟩ := pickInfoset_spec n stream probs st1 hstream
          (hshape n (List.mem_cons_self n rest)) hpi
        have hst1 : ∀ x ∈ st1, 0 ≤ x ∧ x < 1 := fun x hx => hstream x (hsub x hx)
        obtain ⟨hall2, hsub2⟩ := ih st1 ps2 st2 hst1
          (fun m hm => hshape m (List.mem_cons_of_mem n hm)) hpp
        refine ⟨?_, fun x hx => hsub x (hsub2 x hx)⟩
        intro pr hpr
        rcases List.mem_cons.mp hpr with hpr | hpr
        · subst hpr; exact ⟨hall, hsum, hlast⟩
        · exact hall2 pr hpr

lemma PickRandomProfile_spec : ∀ (shapes : List (List Nat)) (stream : List ℚ)
    (prof : List (List (List ℚ))) (rest : List ℚ),
    (∀ x ∈ stream, 0 ≤ x ∧ x < 1) → (∀ pl ∈ shapes, ∀ n ∈ pl, 1 ≤ n) →
    PickRandomProfile shapes stream = some (prof, rest) →
    (∀ pl ∈ prof, ∀ probs ∈ pl, (∀ p ∈ probs, 0 ≤ p ∧ p ≤ 1) ∧ probs.sum = 1 ∧
      probs.getLast? = some (1 - probs.dropLast.sum)) ∧ (∀ x ∈ rest, x ∈ stream) := by
  intro shapes
  induction shapes with
  | nil =>
    intro stream prof rest hstream _ h
    simp only [PickRandomProfile, Option.some.injEq, Prod.mk.injEq] at h
    obtain ⟨hp, hr⟩ := h
    subst hp; subst hr
    exact ⟨by simp, fun x hx => hx⟩
  | cons shape stl ih =>
    intro stream prof rest hstream hshapes h
    simp only [PickRandomProfile] at h
    split at h
    · exact absurd h (by simp)
    next pl st1 hpp =>
      split at h
      · exact absurd h (by simp)
      next pls st2 hpr =>
        simp only [Option.some.injEq, Prod.mk.injEq] at h
        obtain ⟨hp, hr⟩ := h
        subst hp; subst hr
        obtain ⟨hall1, hsub1⟩ := pickPlayer_spec shape stream pl st1 hstream
          (hshapes shape (List.mem_cons_self shape stl)) hpp
        have hst1 : ∀ x ∈ st1, 0 ≤ x ∧ x < 1 := fun x hx => hstream x (hsub1 x hx)
        obtain ⟨hall2, hsub2⟩ := ih st1 pls st2 hst1
          (fun p hp => hshapes p (List.mem_cons_of_mem shape hp)) hpr
        refine ⟨?_, fun x hx => hsub1 x (hsub2 x hx)⟩
        intro p hp
        rcases List.mem_cons.mp hp with hp | hp
        · subst hp; exact hall1
        · exact hall2 p hp

/-- C3: After `PickRandomProfile` (run over any stream of uniform draws in
`[0,1)`, with every information set having at least one active action), every
information set's assigned action probabilities are all in `[0,1]` and sum to
exactly 1; each action except the last gets an accepted uniform draw (redrawn
while it would push the running partial sum over 1), and the last action in
the infoset's active-support order gets the residual 1 minus the sum of the
others. -/
theorem pick_random_profile_simplex (shapes : List (List Nat)) (stream : List ℚ)
    (prof : List (List (List ℚ))) (rest : List ℚ)
    (hstream : ∀ x ∈ stream, 0 ≤ x ∧ x < 1)
    (hshapes : ∀ pl ∈ shapes, ∀ n ∈ pl, 1 ≤ n)
    (h : PickRandomProfile shapes stream = some (prof, rest)) :
    ∀ pl ∈ prof, ∀ probs ∈ pl, (∀ p ∈ probs, 0 ≤ p ∧ p ≤ 1) ∧ probs.sum = 1 ∧
      probs.getLast? = some (1 - probs.dropLast.sum) :=
  (PickRandomProfile_spec shapes stream prof rest hstream hshapes h).1

/-- Concrete witness for the random-profile sampling theorem: a single
player with one 2-action infoset and the draw stream `[0]`. -/
theorem pick_random_profile_simplex_witness :
    (∀ p ∈ [(0 : ℚ), 1], 0 ≤ p ∧ p ≤ 1) ∧ ([(0 : ℚ), 1]).sum = 1 ∧
      ([(0 : ℚ), 1]).getLast? = some (1 - ([(0 : ℚ), 1]).dropLast.sum) :=
  pick_random_profile_simplex [[2]] [0] [[[0, 1]]] []
    (by norm_num) (by norm_num)
    (by norm_num [PickRandomProfile, pickPlayer, pickInfoset, pickActs, drawAccept])
    [[(0 : ℚ), 1]] (by norm_num) [(0 : ℚ), 1] (by norm_num)

/-! The `Liap` restart driver (eliap.cc).  The external Powell minimizer is
modelled as an oracle assigning to every attempt index the outcome of that
attempt: how many objective evaluations it performed, whether it reported
success, and whether a cancellation signal was raised (and hence is set on
the shared `gStatus` handle) while it ran. -/

/-- Outcome of one minimization attempt (one `Powell` call). -/
structure Attempt where
  evals : Nat
  found : Bool
  cancelled : Bool
deriving DecidableEq

/-- State of one `Liap` run: the solution list (identified by the indices of
the attempts that produced them), the shared cancellation flag, the
objective's `_nevals` counter, and the number of loop bodies executed. -/
structure LiapState where
  solutions : List Nat
  status : Bool
  nevals : Nat
  attempts : Nat
deriving DecidableEq

/-- Body of the restart loop of `Liap`: run `Powell` (attempt `i` of the
oracle), on success append a solution, and then execute
`if (params.status.Get()) params.status.Reset();`. -/
def liapBody (oracle : Nat → Attempt) (i : Nat) (st : LiapState) : LiapState :=
  let a := oracle i
  let st1 : LiapState :=
    { solutions := if a.found then st.solutions ++ [i] else st.solutions
      status := a.cancelled
      nevals := st.nevals + a.evals
      attempts := st.attempts + 1 }
  if st1.status then { st1 with status := false } else st1

/-- The loop condition of `Liap` apart from `i <= nTries`:
`!params.status.Get() && (stopAfter == 0 || solutions.Length() < stopAfter)`. -/
def liapContinue (stopAfter : Nat) (st : LiapState) : Bool :=
  !st.status && (stopAfter == 0 || decide (st.solutions.length < stopAfter))

/-- The `for (int i = 1; ...; i++)` restart loop of `Liap`; the second
argument counts the remaining tries (`nTries - i + 1`), so `i <= nTries`
holds exactly while it is positive. -/
def liapLoop (stopAfter : Nat) (oracle : Nat → Attempt) : Nat → Nat → LiapState → LiapState
  | _, 0, st => st
  | i, tries + 1, st =>
    if liapContinue stopAfter st then
      liapLoop stopAfter oracle (i + 1) tries (liapBody oracle i st)
    else st

/-- Everything `Liap` hands back: its `bool` return value, the solution
list, the `nevals` and `niters` outputs, the value left on the shared
status handle, and the number of attempts executed. -/
structure LiapResult where
  ret : Bool
  solutions : List Nat
  nevalsOut : Nat
  nitersOut : Nat
  status : Bool
  attempts : Nat
deriving DecidableEq

/-- `Liap` (eliap.cc): construct a fresh objective (counter 0), run the
restart loop from attempt 1, then write `nevals = F.NumEvals()`,
`niters = 0L` and return `solutions.Length() > 0`. -/
def Liap (nTries stopAfter : Nat) (oracle : Nat → Attempt) (status0 : Bool)
    (solutions0 : List Nat) : LiapResult :=
  let st := liapLoop stopAfter oracle 1 nTries ⟨solutions0, status0, 0, 0⟩
  ⟨decide (0 < st.solutions.length), st.solutions, st.nevals, 0, st.status, st.attempts⟩

lemma liapLoop_zero (sa : Nat) (o : Nat → Attempt) (i : Nat) (st : LiapState) :
    liapLoop sa o i 0 st = st := rfl

lemma liapLoop_succ (sa : Nat) (o : Nat → Attempt) (i t : Nat) (st : LiapState) :
    liapLoop sa o i (t + 1) st =
      if liapContinue sa st then liapLoop sa o (i + 1) t (liapBody o i st) else st := rfl

lemma liapBody_status (o : Nat → Attempt) (i : Nat) (st : LiapState) :
    (liapBody o i st).status = false := by
  unfold liapBody
  dsimp only
  split
  · rfl
  · next h => exact Bool.eq_false_iff.mpr h

lemma liapBody_attempts (o : Nat → Attempt) (i : Nat) (st : LiapState) :
    (liapBody o i st).attempts = st.attempts + 1 := by
  unfold liapBody
  dsimp only
  split <;> rfl

lemma liapBody_nevals (o : Nat → Attempt) (i : Nat) (st : LiapState) :
    (liapBody o i st).nevals = st.nevals + (o i).evals := by
  unfold liapBody
  dsimp only
  split <;> rfl

lemma liapBody_solutions (o : Nat → Attempt) (i : Nat) (st : LiapState) :
    (liapBody o i st).solutions =
      if (o i).found then st.solutions ++ [i] else st.solutions := by
  unfold liapBody
  dsimp only
  split <;> rfl

lemma liapLoop_stopped (sa : Nat) (o : Nat → Attempt) (i t : Nat) (st : LiapState)
    (h : liapContinue sa st = false) : liapLoop sa o i t st = st := by
  cases t with
  | zero => rfl
  | succ m => rw [liapLoop_succ, h]; simp

lemma liapLoop_attempts_le (sa : Nat) (o : Nat → Attempt) :
    ∀ (t i : Nat) (st : LiapState), (liapLoop sa o i t st).attempts ≤ st.attempts + t := by
  intro t
  induction t with
  | zero => intro i st; rw [liapLoop_zero]; omega
  | succ m ih =>
    intro i st
    rw [liapLoop_succ]
    split
    · have := ih (i + 1) (liapBody o i st)
      rw [liapBody_attempts] at this
      omega
    · omega

lemma liapLoop_attempts_ge (sa : Nat) (o : Nat → Attempt) :
    ∀ (t i : Nat) (st : LiapState), st.attempts ≤ (liapLoop sa o i t st).attempts := by
  intro t
  induction t with
  | zero => intro i st; rw [liapLoop_zero]
  | succ m ih =>
    intro i st
    rw [liapLoop_succ]
    split
    · have := ih (i + 1) (liapBody o i st)
      rw [liapBody_attempts] at this
      omega
    · omega

lemma liapLoop_status_stop (sa : Nat) (o : Nat → Attempt) (i t : Nat) (st : LiapState)
    (h : st.status = true) : liapLoop sa o i t st = st := by
  apply liapLoop_stopped
  simp [liapContinue, h]

lemma liapLoop_target_stop (sa : Nat) (o : Nat → Attempt) (i t : Nat) (st : LiapState)
    (hsa : sa ≠ 0) (hlen : sa ≤ st.solutions.length) : liapLoop sa o i t st = st := by
  apply liapLoop_stopped
  simp [liapContinue, hsa, Nat.not_lt.mpr hlen]

lemma liapLoop_nevals (sa : Nat) (o : Nat → Attempt) :
    ∀ (t i : Nat) (st : LiapState),
    (liapLoop sa o i t st).nevals = st.nevals +
      ((List.range' i ((liapLoop sa o i t st).attempts - st.attempts)).map
        (fun j => (o j).evals)).sum := by
  intro t
  induction t with
  | zero => intro i st; rw [liapLoop_zero]; simp
  | succ m ih =>
    intro i st
    rw [liapLoop_succ]
    split
    · have hge := liapLoop_attempts_ge sa o m (i + 1) (liapBody o i st)
      rw [liapBody_attempts] at hge
      have heq := ih (i + 1) (liapBody o i st)
      rw [liapBody_attempts, liapBody_nevals] at heq
      set res := liapLoop sa o (i + 1) m (liapBody o i st) with hres
      have hk : res.attempts - st.attempts = (res.attempts - (st.attempts + 1)) + 1 := by
        omega
      rw [hk, List.range'_succ, List.map_cons, List.sum_cons, heq]
      omega
    · simp

lemma liapLoop_first_success (o : Nat → Attempt) (k : Nat) (hk : (o k).found = true) :
    ∀ (t i : Nat) (st : LiapState), st.status = false → st.solutions = [] →
    i ≤ k → k < i + t → (∀ j, i ≤ j → j < k → (o j).found = false) →
    (liapLoop 1 o i t st).solutions = [k] ∧
      (liapLoop 1 o i t st).attempts = st.attempts + (k + 1 - i) := by
  intro t
  induction t with
  | zero => intro i st _ _ hik hkt _; omega
  | succ m ih =>
    intro i st hstat hsol hik hkt hbefore
    have hcont : liapContinue 1 st = true := by
      simp [liapContinue, hstat, hsol]
    rw [liapLoop_succ, hcont]
    simp only [if_true]
    by_cases hieq : i = k
    · subst hieq
      have hbody_sol : (liapBody o i st).solutions = [i] := by
        rw [liapBody_solutions, hk, hsol]
        simp
      have hstop : liapContinue 1 (liapBody o i st) = false := by
        simp [liapContinue, hbody_sol]
      rw [liapLoop_stopped 1 o (i + 1) m _ hstop]
      rw [hbody_sol, liapBody_attempts]
      exact ⟨rfl, by omega⟩
    · have hilt : i < k := lt_of_le_of_ne hik hieq
      have hfound : (o i).found = false := hbefore i le_rfl hilt
      have hbody_sol : (liapBody o i st).solutions = [] := by
        rw [liapBody_solutions, hfound, hsol]
        simp
      obtain ⟨h1, h2⟩ := ih (i + 1) (liapBody o i st) (liapBody_status o i st) hbody_sol
        (by omega) (by omega) (fun j hj1 hj2 => hbefore j (by omega) hj2)
      rw [liapBody_attempts] at h2
      exact ⟨h1, by rw [h2]; omega⟩

/-- C4: The restart loop of `Liap` runs at most `nTries` attempts; it
performs no attempt at all once the solution list already holds `stopAfter`
solutions (`stopAfter = 0` meaning unlimited); and for every call with
`stopAfter = 1`, `nTries = 10` and an initially empty solution list whose
first successful minimization is attempt `k`, the loop performs no further
attempts after that success, yielding exactly the one solution of attempt
`k`. -/
theorem liap_tries_bound_and_early_stop :
    (∀ (sa : Nat) (o : Nat → Attempt) (t i : Nat) (st : LiapState),
      (liapLoop sa o i t st).attempts ≤ st.attempts + t) ∧
    (∀ (sa : Nat) (o : Nat → Attempt) (t i : Nat) (st : LiapState), sa ≠ 0 →
      sa ≤ st.solutions.length → liapLoop sa o i t st = st) ∧
    (∀ (o : Nat → Attempt) (k : Nat), 1 ≤ k → k ≤ 10 → (o k).found = true →
      (∀ j, 1 ≤ j → j < k → (o j).found = false) →
      (Liap 10 1 o false []).solutions = [k] ∧ (Liap 10 1 o false []).attempts = k) := by
  refine ⟨fun sa o t i st => liapLoop_attempts_le sa o t i st,
    fun sa o t i st hsa hlen => liapLoop_target_stop sa o i t st hsa hlen,
    fun o k hk1 hk10 hfound hbefore => ?_⟩
  obtain ⟨h1, h2⟩ := liapLoop_first_success o k hfound 10 1 ⟨[], false, 0, 0⟩
    rfl rfl hk1 (by omega) (fun j hj1 hj2 => hbefore j hj1 hj2)
  exact ⟨h1, by simpa using h2⟩

/-- Oracle for the witness of the restart-loop theorem: attempt 2 is the
first success. -/
def oracleFirstSuccess : Nat → Attempt :=
  fun i => if i = 2 then ⟨5, true, false⟩ else ⟨3, false, false⟩

/-- Concrete witness: with the first success at attempt 2, `Liap` with
`stopAfter = 1`, `nTries = 10` executes exactly 2 attempts and collects
exactly the one solution of attempt 2. -/
theorem liap_tries_bound_and_early_stop_witness :
    (Liap 10 1 oracleFirstSuccess false []).solutions = [2] ∧
      (Liap 10 1 oracleFirstSuccess false []).attempts = 2 :=
  liap_tries_bound_and_early_stop.2.2 oracleFirstSuccess 2 (by omega) (by omega) rfl
    (fun j h1 h2 => by
      have hj : j = 1 := by omega
      subst hj
      rfl)

/-- An oracle whose every attempt succeeds immediately and raises no
cancellation; used to show that a stale pre-set flag, not any new
cancellation request, is what aborts the second call. -/
def oracleAlwaysGood : Nat → Attempt := fun _ => ⟨1, true, false⟩

/-- C5 counterexample: a single external cancellation request (the flag set
once, before the first call) aborts the first `Liap` call, which returns
with the flag STILL SET (the reset in the loop body never ran), so a second
`Liap` call reusing the same status handle is also aborted: it executes 0
attempts and returns `false` although no new cancellation was requested.
This refutes the claim that after consuming a cancellation the driver
resets the flag so that a single request aborts only the current search and
not subsequent calls reusing the handle. -/
theorem liap_cancellation_counterexample :
    (Liap 1 1 oracleAlwaysGood true []).status = true ∧
      Liap 1 1 oracleAlwaysGood ((Liap 1 1 oracleAlwaysGood true []).status) [] =
        ⟨false, [], 0, 0, true, 0⟩ :=
  ⟨rfl, rfl⟩

lemma liapLoop_unlimited_attempts (o : Nat → Attempt) :
    ∀ (t i : Nat) (st : LiapState), st.status = false →
    (liapLoop 0 o i t st).attempts = st.attempts + t := by
  intro t
  induction t with
  | zero => intro i st _; rw [liapLoop_zero]; omega
  | succ m ih =>
    intro i st hstat
    have hcont : liapContinue 0 st = true := by simp [liapContinue, hstat]
    rw [liapLoop_succ, hcont]
    simp only [if_true]
    rw [ih (i + 1) (liapBody o i st) (liapBody_status o i st), liapBody_attempts]
    omega

/-- C5 amended: the cancellation flag is read in the top-of-iteration loop
condition, and the only reset is the `if (status.Get()) status.Reset()` at
the end of each loop body.  Hence (1) a call entered with the flag already
set performs no attempts and no evaluations, appends no solution, returns
`false` — and leaves the flag set, so subsequent calls reusing the handle
are also aborted until the flag is reset externally; (2) a loop-top check
that sees the flag set terminates the loop immediately; (3) the end of
every executed loop body leaves the flag cleared, so (4) a cancellation
raised during an attempt aborts at most that attempt's minimization: the
restart loop itself continues, as in a 2-try unlimited run whose first
attempt raises a cancellation yet both attempts execute. -/
theorem liap_cancellation_semantics :
    (∀ o : Nat → Attempt, Liap 1 1 o true [] = ⟨false, [], 0, 0, true, 0⟩) ∧
    (∀ (sa : Nat) (o : Nat → Attempt) (i t : Nat) (st : LiapState),
      st.status = true → liapLoop sa o i t st = st) ∧
    (∀ (o : Nat → Attempt) (i : Nat) (st : LiapState), (liapBody o i st).status = false) ∧
    (∀ o : Nat → Attempt, (o 1).cancelled = true → (o 1).found = false →
      (Liap 2 0 o false []).attempts = 2) := by
  refine ⟨fun o => rfl,
    fun sa o i t st h => liapLoop_status_stop sa o i t st h,
    fun o i st => liapBody_status o i st,
    fun o _ _ => ?_⟩
  show (liapLoop 0 o 1 2 ⟨[], false, 0, 0⟩).attempts = 2
  rw [liapLoop_unlimited_attempts o 2 1 ⟨[], false, 0, 0⟩ rfl]

/-- Oracle for the cancellation-semantics witness: attempt 1 raises a
cancellation mid-minimization and fails; attempt 2 runs normally. -/
def oracleCancelFirst : Nat → Attempt :=
  fun i => if i = 1 then ⟨2, false, true⟩ else ⟨3, true, false⟩

/-- Concrete witness: a cancellation raised during attempt 1 of a 2-try
unlimited run does not stop the restart loop — both attempts execute. -/
theorem liap_cancellation_semantics_witness :
    (Liap 2 0 oracleCancelFirst false []).attempts = 2 :=
  liap_cancellation_semantics.2.2.2 oracleCancelFirst rfl rfl

lemma liap_ret_iff (nT sa : Nat) (o : Nat → Attempt) (s0 : Bool) (sols0 : List Nat) :
    (Liap nT sa o s0 sols0).ret = true ↔ (Liap nT sa o s0 sols0).solutions ≠ [] := by
  unfold Liap
  dsimp only
  rw [decide_eq_true_iff]
  rw [List.length_pos]

/-- C6: `Liap` returns `true` if and only if the solution list is non-empty
when it returns; the objective's evaluation counter increases by exactly 1
on every `Value` invocation (hence is monotonically non-decreasing across
the run); and `Liap` writes the total evaluation count of all executed
attempts to its `nevals` output and always writes `0` to its `niters`
output. -/
theorem liap_return_and_counters :
    (∀ (n : Nat) (g : List (List LiapInfoset)),
      (EFLiapFuncValue n g).1 = n + 1 ∧ n ≤ (EFLiapFuncValue n g).1) ∧
    (∀ (nT sa : Nat) (o : Nat → Attempt) (s0 : Bool) (sols0 : List Nat),
      ((Liap nT sa o s0 sols0).ret = true ↔ (Liap nT sa o s0 sols0).solutions ≠ []) ∧
      (Liap nT sa o s0 sols0).nitersOut = 0 ∧
      (Liap nT sa o s0 sols0).nevalsOut =
        ((List.range' 1 (Liap nT sa o s0 sols0).attempts).map
          (fun j => (o j).evals)).sum) := by
  refine ⟨fun n g => ⟨rfl, by simp [EFLiapFuncValue]⟩, fun nT sa o s0 sols0 =>
    ⟨liap_ret_iff nT sa o s0 sols0, rfl, ?_⟩⟩
  show (liapLoop sa o 1 nT ⟨sols0, s0, 0, 0⟩).nevals = _
  have h := liapLoop_nevals sa o nT 1 ⟨sols0, s0, 0, 0⟩
  simpa using h

/-! `EFLiapBySubgame::SolveSubgame` (eliap.cc).  The game-tree queries are
abstracted into per-player data: the full game's per-infoset subgame
indices (`infoset_subgames(pl, ·)`), the full-game starting profile
(`start(pl, iset, ·)`), and the fresh subgame profile `BehavProfile(E)`
with its externally determined initial entries, one action list per local
infoset of the subgame. -/

/-- Data of one player as consumed by `SolveSubgame`. -/
structure PlayerData where
  subs : List Nat
  startp : List (List ℚ)
  bp0 : List (List ℚ)

/-- The `for (act = 1; act <= bp.GetEFSupport().NumActions(pl, niset); act++)`
copy loop: overwrite the destination's entries `1 .. NumActions` with the
source's; reading past the source's end would throw, modelled as `none`. -/
def copyActs (dst src : List ℚ) : Option (List ℚ) :=
  if dst.length ≤ src.length then some (src.take dst.length) else none

/-- The `for (iset ...)` loop of `SolveSubgame` for one player: walk the
full game's infosets (subgame index paired with starting probabilities);
whenever the infoset is mapped to the current subgame number, copy its
starting probabilities into the next local infoset (`niset`) of the fresh
profile and advance `niset`; running out of local infosets (which would be
an out-of-range access) is `none`. -/
def assignPlayer (subn : Nat) : List (Nat × List ℚ) → List (List ℚ) → Option (List (List ℚ))
  | [], bp => some bp
  | (s, stIset) :: rest, bp =>
    if s = subn then
      match bp with
      | [] => none
      | d :: tl =>
        match copyActs d stIset with
        | none => none
        | some d2 =>
          match assignPlayer subn rest tl with
          | none => none
          | some r => some (d2 :: r)
    else assignPlayer subn rest bp

/-- The `for (pl ...)` loop of `SolveSubgame` building the fresh behavior
profile `bp` for the subgame. -/
def buildProfile (subn : Nat) : List PlayerData → Option (List (List (List ℚ)))
  | [] => some []
  | pd :: rest =>
    match assignPlayer subn (pd.subs.zip pd.startp) pd.bp0 with
    | none => none
    | some bpPl =>
      match buildProfile subn rest with
      | none => none
      | some r => some (bpPl :: r)

/-- Mutable state of the subgame driver: running evaluation total and the
monotonically increasing subgame counter. -/
structure EFLiapBySubgame where
  nevals : Nat
  subgame_number : Nat

/-- `EFLiapBySubgame::SolveSubgame`: increment the subgame counter, build
the fresh profile, run `Liap` on it, accumulate its evaluation count, and
return the current cancellation-status value (with the new driver state,
the built profile and the full `Liap` result exposed for observation). -/
def SolveSubgame (S : EFLiapBySubgame) (status : Bool) (players : List PlayerData)
    (nTries stopAfter : Nat) (oracle : Nat → Attempt) (solns0 : List Nat) :
    Option (EFLiapBySubgame × Bool × List (List (List ℚ)) × LiapResult) :=
  let subn := S.subgame_number + 1
  match buildProfile subn players with
  | none => none
  | some bp =>
    let r := Liap nTries stopAfter oracle status solns0
    some (⟨S.nevals + r.nevalsOut, subn⟩, r.status, bp, r)

/-- Spec-side description of one player's built profile: the full-game
infosets mapped to the current subgame number, in order of appearance,
matched to consecutive local infoset positions, each local infoset holding
the starting probabilities of its matched full-game infoset (truncated to
the local support's action count); local infosets beyond the matched ones
keep their initial entries. -/
def copiedPlayer (subn : Nat) (pd : PlayerData) : List (List ℚ) :=
  let m := ((pd.subs.zip pd.startp).filter (fun x => x.1 == subn)).map Prod.snd
  List.zipWith (fun d s => s.take d.length) pd.bp0 m ++ pd.bp0.drop m.length

lemma copyActs_eq (dst src d2 : List ℚ) (h : copyActs dst src = some d2) :
    d2 = src.take dst.length := by
  unfold copyActs at h
  split at h
  · exact (Option.some.injEq _ _ ▸ h).symm
  · exact absurd h (by simp)

lemma assignPlayer_eq (subn : Nat) : ∀ (l : List (Nat × List ℚ)) (bp res : List (List ℚ)),
    assignPlayer subn l bp = some res →
    res = List.zipWith (fun d s => s.take d.length) bp
        ((l.filter (fun x => x.1 == subn)).map Prod.snd) ++
      bp.drop ((l.filter (fun x => x.1 == subn)).map Prod.snd).length := by
  intro l
  induction l with
  | nil =>
    intro bp res h
    simp only [assignPlayer, Option.some.injEq] at h
    subst h
    simp
  | cons hd rest ih =>
    obtain ⟨s, stI⟩ := hd
    intro bp res h
    simp only [assignPlayer] at h
    split at h
    · next hs =>
      match bp with
      | [] => exact absurd h (by simp)
      | d :: tl =>
        simp only at h
        split at h
        · exact absurd h (by simp)
        · next d2 hd2 =>
          split at h
          · exact absurd h (by simp)
          · next r hr =>
            simp only [Option.some.injEq] at h
            subst h
            have hfil : (((s, stI) :: rest).filter (fun x => x.1 == subn)).map Prod.snd =
                stI :: ((rest.filter (fun x => x.1 == subn)).map Prod.snd) := by
              rw [List.filter_cons_of_pos]
              · simp
              · simpa using hs
            rw [hfil]
            simp only [List.zipWith_cons_cons, List.length_cons, List.drop_succ_cons,
              List.cons_append]
            rw [← ih tl r hr, copyActs_eq d stI d2 hd2]
    · next hs =>
      have hfil : ((s, stI) :: rest).filter (fun x => x.1 == subn) =
          rest.filter (fun x => x.1 == subn) := by
        rw [List.filter_cons_of_neg]
        simpa using hs
      rw [hfil]
      exact ih bp res h

lemma buildProfile_eq (subn : Nat) : ∀ (players : List PlayerData)
    (res : List (List (List ℚ))), buildProfile subn players = some res →
    res = players.map (copiedPlayer subn) := by
  intro players
  induction players with
  | nil =>
    intro res h
    simp only [buildProfile, Option.some.injEq] at h
    subst h
    simp
  | cons pd rest ih =>
    intro res h
    simp only [buildProfile] at h
    split at h
    · exact absurd h (by simp)
    · next bpPl hbp =>
      split at h
      · exact absurd h (by simp)
      · next r hr =>
        simp only [Option.some.injEq] at h
        subst h
        have hb : bpPl = copiedPlayer subn pd := by
          simp only [copiedPlayer]
          exact assignPlayer_eq subn _ _ _ hbp
        rw [List.map_cons, ← ih r hr, ← hb]

/-- C7: Every successful call to `SolveSubgame` increments the internal
subgame counter by exactly 1; builds a fresh behavior profile in which, for
each player, the full-game infosets mapped to the current subgame number
are matched in order of appearance to consecutive local infoset positions
and the starting profile's action probabilities at each such full-game
infoset are copied into the matched local infoset; runs the equilibrium
search (`Liap`) on that profile; adds the search's evaluation count to the
running `nevals` total; and returns the current cancellation-status value. -/
theorem solve_subgame_spec (S : EFLiapBySubgame) (status : Bool)
    (players : List PlayerData) (nT sA : Nat) (oracle : Nat → Attempt)
    (solns0 : List Nat) (out : EFLiapBySubgame × Bool × List (List (List ℚ)) × LiapResult)
    (h : SolveSubgame S status players nT sA oracle solns0 = some out) :
    out.1.subgame_number = S.subgame_number + 1 ∧
    out.2.2.2 = Liap nT sA oracle status solns0 ∧
    out.1.nevals = S.nevals + out.2.2.2.nevalsOut ∧
    out.2.1 = out.2.2.2.status ∧
    out.2.2.1 = players.map (copiedPlayer (S.subgame_number + 1)) := by
  simp only [SolveSubgame] at h
  split at h
  · exact absurd h (by simp)
  · next bp hbp =>
    simp only [Option.some.injEq] at h
    subst h
    exact ⟨rfl, rfl, rfl, rfl, buildProfile_eq _ players bp hbp⟩

/-- Oracle for the subgame witness: every attempt succeeds after 4
objective evaluations. -/
def oracleSubgame : Nat → Attempt := fun _ => ⟨4, true, false⟩

/-- Concrete witness for `SolveSubgame`: one player whose full game has
three infosets with subgame indices `[1, 2, 1]` and starting probability
lists `[[5], [6], [7]]`; the subgame has two local one-action infosets.
Infosets 1 and 3 are matched in order to local positions 1 and 2, so the
built profile is `[[5], [7]]`. -/
theorem solve_subgame_spec_witness :
    ((⟨4, 1⟩ : EFLiapBySubgame), false, [[[(5 : ℚ)], [7]]],
        (⟨true, [1], 4, 0, false, 1⟩ : LiapResult)).1.subgame_number = 0 + 1 ∧
    ((⟨4, 1⟩ : EFLiapBySubgame), false, [[[(5 : ℚ)], [7]]],
        (⟨true, [1], 4, 0, false, 1⟩ : LiapResult)).2.2.2 =
      Liap 1 1 oracleSubgame false [] ∧
    ((⟨4, 1⟩ : EFLiapBySubgame), false, [[[(5 : ℚ)], [7]]],
        (⟨true, [1], 4, 0, false, 1⟩ : LiapResult)).1.nevals = 0 +
      ((⟨4, 1⟩ : EFLiapBySubgame), false, [[[(5 : ℚ)], [7]]],
        (⟨true, [1], 4, 0, false, 1⟩ : LiapResult)).2.2.2.nevalsOut ∧
    ((⟨4, 1⟩ : EFLiapBySubgame), false, [[[(5 : ℚ)], [7]]],
        (⟨true, [1], 4, 0, false, 1⟩ : LiapResult)).2.1 =
      ((⟨4, 1⟩ : EFLiapBySubgame), false, [[[(5 : ℚ)], [7]]],
        (⟨true, [1], 4, 0, false, 1⟩ : LiapResult)).2.2.2.status ∧
    ((⟨4, 1⟩ : EFLiapBySubgame), false, [[[(5 : ℚ)], [7]]],
        (⟨true, [1], 4, 0, false, 1⟩ : LiapResult)).2.2.1 =
      [⟨[1, 2, 1], [[5], [6], [7]], [[0], [0]]⟩].map (copiedPlayer (0 + 1)) :=
  solve_subgame_spec ⟨0, 0⟩ false [⟨[1, 2, 1], [[5], [6], [7]], [[0], [0]]⟩]
    1 1 oracleSubgame [] _ rfl

/-! The `EFLiapBySubgame` constructor (eliap.cc).  Tree nodes are abstracted
to identifiers (`Nat`): `roots` holds, for each player and each of their
infosets, the value of `infoset->GetMember(1)->GetSubgameRoot()`, and
`subroots` is the list produced by `MarkedSubgameRoots`. -/

/-- The scan `for (index = 1; index <= subroots.Length() &&
member->GetSubgameRoot() != subroots[index]; index++);` starting the index
count at `i`. -/
def findIndexLoop (r : Nat) : List Nat → Nat → Nat
  | [], i => i
  | s :: rest, i => if r = s then i else findIndexLoop r rest (i + 1)

/-- The per-infoset body of the constructor: run the scan from index 1,
then `assert(index <= subroots.Length())` — modelled as `none` on assertion
failure — and store the index. -/
def infosetSubgameIndex (r : Nat) (subroots : List Nat) : Option Nat :=
  let i := findIndexLoop r subroots 1
  if i ≤ subroots.length then some i else none

/-- The `for (iset ...)` loop of the constructor over one player's
infosets. -/
def buildRow (subroots : List Nat) : List Nat → Option (List Nat)
  | [] => some []
  | r :: rest =>
    match infosetSubgameIndex r subroots with
    | none => none
    | some i =>
      match buildRow subroots rest with
      | none => none
      | some t => some (i :: t)

/-- The `for (pl ...)` loop of the constructor filling `infoset_subgames`. -/
def buildInfosetSubgames (subroots : List Nat) : List (List Nat) → Option (List (List Nat))
  | [] => some []
  | row :: rest =>
    match buildRow subroots row with
    | none => none
    | some is0 =>
      match buildInfosetSubgames subroots rest with
      | none => none
      | some t => some (is0 :: t)

/-- The assigned index is a first occurrence: it is in range (1-based), the
marked root stored there equals the infoset's subgame root, and no earlier
position in the marked-roots list does. -/
def firstRootIndex (subroots : List Nat) (r i : Nat) : Prop :=
  1 ≤ i ∧ i ≤ subroots.length ∧ subroots[i - 1]? = some r ∧
    ∀ j, j < i - 1 → subroots[j]? ≠ some r

lemma findIndexLoop_not_mem (r : Nat) : ∀ (l : List Nat) (i0 : Nat), r ∉ l →
    findIndexLoop r l i0 = i0 + l.length := by
  intro l
  induction l with
  | nil => intro i0 _; simp [findIndexLoop]
  | cons s rest ih =>
    intro i0 h
    have hrs : ¬ r = s := fun he => h (he ▸ List.mem_cons_self s rest)
    simp only [findIndexLoop, if_neg hrs]
    rw [ih (i0 + 1) (fun hm => h (List.mem_cons_of_mem s hm))]
    simp only [List.length_cons]
    omega

lemma findIndexLoop_mem (r : Nat) : ∀ (l : List Nat) (i0 : Nat), r ∈ l →
    ∃ k, k < l.length ∧ l[k]? = some r ∧ (∀ j, j < k → l[j]? ≠ some r) ∧
      findIndexLoop r l i0 = i0 + k := by
  intro l
  induction l with
  | nil => intro i0 h; cases h
  | cons s rest ih =>
    intro i0 h
    by_cases hrs : r = s
    · refine ⟨0, by simp, ?_, by omega, ?_⟩
      · rw [List.getElem?_cons_zero, hrs]
      · simp [findIndexLoop, if_pos hrs]
    · have hmem : r ∈ rest := by
        rcases List.mem_cons.mp h with he | hm
        · exact absurd he hrs
        · exact hm
      obtain ⟨k, hk1, hk2, hk3, hk4⟩ := ih (i0 + 1) hmem
      refine ⟨k + 1, by simp; omega, by rwa [List.getElem?_cons_succ], ?_, ?_⟩
      · intro j hj
        cases j with
        | zero =>
          rw [List.getElem?_cons_zero]
          intro he
          exact hrs (Option.some.injEq _ _ ▸ he).symm
        | succ m =>
          rw [List.getElem?_cons_succ]
          exact hk3 m (by omega)
      · simp only [findIndexLoop, if_neg hrs]
        rw [hk4]
        omega

lemma infosetSubgameIndex_isSome_iff (r : Nat) (subroots : List Nat) :
    (infosetSubgameIndex r subroots).isSome = true ↔ r ∈ subroots := by
  unfold infosetSubgameIndex
  by_cases h : r ∈ subroots
  · obtain ⟨k, hk1, _, _, hk4⟩ := findIndexLoop_mem r subroots 1 h
    rw [hk4]
    simp only [if_pos (by omega : 1 + k ≤ subroots.length)]
    simpa using h
  · rw [findIndexLoop_not_mem r subroots 1 h]
    simp only [if_neg (by omega : ¬ 1 + subroots.length ≤ subroots.length)]
    simpa using h

lemma infosetSubgameIndex_first (r : Nat) (subroots : List Nat) (i : Nat)
    (h : infosetSubgameIndex r subroots = some i) : firstRootIndex subroots r i := by
  have hmem : r ∈ subroots := by
    rw [← infosetSubgameIndex_isSome_iff r subroots, h]
    rfl
  obtain ⟨k, hk1, hk2, hk3, hk4⟩ := findIndexLoop_mem r subroots 1 hmem
  unfold infosetSubgameIndex at h
  rw [hk4, if_pos (by omega : 1 + k ≤ subroots.length)] at h
  have hi : i = 1 + k := (Option.some.injEq _ _ ▸ h).symm
  subst hi
  refine ⟨by omega, by omega, ?_, ?_⟩
  · simpa using hk2
  · intro j hj
    exact hk3 j (by omega)

lemma buildRow_isSome (subroots : List Nat) : ∀ row : List Nat,
    (buildRow subroots row).isSome = true ↔ ∀ r ∈ row, r ∈ subroots := by
  intro row
  induction row with
  | nil => simp [buildRow]
  | cons r rest ih =>
    simp only [buildRow]
    cases hi : infosetSubgameIndex r subroots with
    | none =>
      refine iff_of_false (by simp) (fun hall => ?_)
      have := (infosetSubgameIndex_isSome_iff r subroots).mpr
        (hall r (List.mem_cons_self r rest))
      rw [hi] at this
      exact absurd this (by simp)
    | some i =>
      cases hb : buildRow subroots rest with
      | none =>
        refine iff_of_false (by simp) (fun hall => ?_)
        have := (ih).mpr (fun x hx => hall x (List.mem_cons_of_mem r hx))
        rw [hb] at this
        exact absurd this (by simp)
      | some t =>
        refine iff_of_true rfl (fun x hx => ?_)
        rcases List.mem_cons.mp hx with he | hm
        · subst he
          rw [← infosetSubgameIndex_isSome_iff x subroots, hi]
          rfl
        · have := (ih).mp (by rw [hb]; rfl)
          exact this x hm

lemma buildRow_forall2 (subroots : List Nat) : ∀ (row is0 : List Nat),
    buildRow subroots row = some is0 →
    List.Forall₂ (fun r i => infosetSubgameIndex r subroots = some i) row is0 := by
  intro row
  induction row with
  | nil =>
    intro is0 h
    simp only [buildRow, Option.some.injEq] at h
    subst h
    exact List.Forall₂.nil
  | cons r rest ih =>
    intro is0 h
    simp only [buildRow] at h
    split at h
    · exact absurd h (by simp)
    · next i hi =>
      split at h
      · exact absurd h (by simp)
      · next t ht =>
        simp only [Option.some.injEq] at h
        subst h
        exact List.Forall₂.cons hi (ih t ht)

lemma buildInfosetSubgames_isSome (subroots : List Nat) : ∀ roots : List (List Nat),
    (buildInfosetSubgames subroots roots).isSome = true ↔
      ∀ pl ∈ roots, ∀ r ∈ pl, r ∈ subroots := by
  intro roots
  induction roots with
  | nil => simp [buildInfosetSubgames]
  | cons row rest ih =>
    simp only [buildInfosetSubgames]
    cases hr : buildRow subroots row with
    | none =>
      refine iff_of_false (by simp) (fun hall => ?_)
      have := (buildRow_isSome subroots row).mpr (hall row (List.mem_cons_self row rest))
      rw [hr] at this
      exact absurd this (by simp)
    | some is0 =>
      cases hb : buildInfosetSubgames subroots rest with
      | none =>
        refine iff_of_false (by simp) (fun hall => ?_)
        have := (ih).mpr (fun pl hpl => hall pl (List.mem_cons_of_mem row hpl))
        rw [hb] at this
        exact absurd this (by simp)
      | some t =>
        refine iff_of_true rfl (fun pl hpl => ?_)
        rcases List.mem_cons.mp hpl with he | hm
        · subst he
          exact (buildRow_isSome subroots pl).mp (by rw [hr]; rfl)
        · exact (ih).mp (by rw [hb]; rfl) pl hm

lemma buildInfosetSubgames_forall2 (subroots : List Nat) :
    ∀ (roots m : List (List Nat)), buildInfosetSubgames subroots roots = some m →
    List.Forall₂ (List.Forall₂
      (fun r i => infosetSubgameIndex r subroots = some i)) roots m := by
  intro roots
  induction roots with
  | nil =>
    intro m h
    simp only [buildInfosetSubgames, Option.some.injEq] at h
    subst h
    exact List.Forall₂.nil
  | cons row rest ih =>
    intro m h
    simp only [buildInfosetSubgames] at h
    split at h
    · exact absurd h (by simp)
    · next is0 hr =>
      split at h
      · exact absurd h (by simp)
      · next t ht =>
        simp only [Option.some.injEq] at h
        subst h
        exact List.Forall₂.cons (buildRow_forall2 subroots row is0 hr) (ih t ht)

/-- C8: The `EFLiapBySubgame` constructor assigns to every (player, infoset)
pair the index of the FIRST marked subgame root in the marked-roots list
that equals the subgame root of the infoset's first member node; the fatal
assertion branch is avoided exactly when every infoset's first member's
subgame root occurs in the marked-roots list. -/
theorem efliap_by_subgame_constructor (subroots : List Nat) (roots : List (List Nat)) :
    ((buildInfosetSubgames subroots roots).isSome = true ↔
      ∀ pl ∈ roots, ∀ r ∈ pl, r ∈ subroots) ∧
    (∀ m, buildInfosetSubgames subroots roots = some m →
      List.Forall₂ (List.Forall₂ (firstRootIndex subroots)) roots m) := by
  refine ⟨buildInfosetSubgames_isSome subroots roots, fun m hm => ?_⟩
  have h2 := buildInfosetSubgames_forall2 subroots roots m hm
  refine List.Forall₂.imp (fun row is0 hri => ?_) h2
  exact List.Forall₂.imp (fun r i hr => infosetSubgameIndex_first r subroots i hr) hri

/-- Concrete witness for the constructor theorem: one player with two
infosets whose subgame roots are nodes `10` and `20`; the marked-roots list
is `[20, 10, 20]`, so the first matches are at indices 2 and 1. -/
theorem efliap_by_subgame_constructor_witness :
    List.Forall₂ (List.Forall₂ (firstRootIndex [20, 10, 20])) [[10, 20]] [[2, 1]] :=
  (efliap_by_subgame_constructor [20, 10, 20] [[10, 20]]).2 [[2, 1]] rfl

/-! `gbtRectArray` (grarray.h).  The index-shifted dense storage with bounds
`[minrow, maxrow] × [mincol, maxcol]` is modelled as the four bounds plus a
total content function; `throw gbtIndexException()` / `throw
gbtDimensionException()` become `Except.error`. -/

/-- The exceptions thrown by the container. -/
inductive gbtException
  | index
  | dimension
deriving DecidableEq

/-- `gbtRectArray<T>`: bounds and stored contents (the content function is
only meaningful on in-range index pairs). -/
structure gbtRectArray (T : Type) where
  minrow : Int
  maxrow : Int
  mincol : Int
  maxcol : Int
  data : Int → Int → T

/-- `gbtRectArray<T>::CheckRow(int)`. -/
def gbtRectArray.CheckRow (A : gbtRectArray T) (row : Int) : Bool :=
  decide (A.minrow ≤ row) && decide (row ≤ A.maxrow)

/-- `gbtRectArray<T>::CheckColumn(int)`. -/
def gbtRectArray.CheckColumn (A : gbtRectArray T) (col : Int) : Bool :=
  decide (A.mincol ≤ col) && decide (col ≤ A.maxcol)

/-- `gbtRectArray<T>::Check(int, int)`. -/
def gbtRectArray.Check (A : gbtRectArray T) (row col : Int) : Bool :=
  A.CheckRow row && A.CheckColumn col

/-- `gbtRectArray<T>::operator()(int, int) const`:
`if (!Check(r, c)) throw gbtIndexException(); return data[r][c];`.
A pure (const) read: the array itself is not modified. -/
def gbtRectArray.getEntry (A : gbtRectArray T) (r c : Int) : Except gbtException T :=
  if A.Check r c then Except.ok (A.data r c) else Except.error gbtException.index

/-- C9: The element access `operator()(r, c)` raises if and only if
`r < minrow` or `r > maxrow` or `c < mincol` or `c > maxcol`, and when it
does not raise it returns the stored element at `(r, c)` (the access is a
const read, so the array is unmodified). -/
theorem rect_array_access (A : gbtRectArray Int) (r c : Int) :
    ((∃ e, A.getEntry r c = Except.error e) ↔
      (r < A.minrow ∨ A.maxrow < r ∨ c < A.mincol ∨ A.maxcol < c)) ∧
    (A.minrow ≤ r → r ≤ A.maxrow → A.mincol ≤ c → c ≤ A.maxcol →
      A.getEntry r c = Except.ok (A.data r c)) := by
  unfold gbtRectArray.getEntry gbtRectArray.Check gbtRectArray.CheckRow
    gbtRectArray.CheckColumn
  by_cases h : A.minrow ≤ r ∧ r ≤ A.maxrow ∧ A.mincol ≤ c ∧ c ≤ A.maxcol
  · obtain ⟨h1, h2, h3, h4⟩ := h
    rw [if_pos (by simp [h1, h2, h3, h4])]
    constructor
    · constructor
      · rintro ⟨e, he⟩
        exact absurd he (by simp)
      · intro hor
        rcases hor with h5 | h5 | h5 | h5 <;> omega
    · intro _ _ _ _
      rfl
  · have hor : r < A.minrow ∨ A.maxrow < r ∨ c < A.mincol ∨ A.maxcol < c := by
      by_contra hno
      push_neg at hno
      exact h ⟨by omega, by omega, by omega, by omega⟩
    rw [if_neg (by
      simp only [Bool.and_eq_true, decide_eq_true_iff]
      rintro ⟨⟨h1, h2⟩, h3, h4⟩
      rcases hor with h5 | h5 | h5 | h5 <;> omega)]
    constructor
    · exact iff_of_true ⟨gbtException.index, rfl⟩ hor
    · intro h1 h2 h3 h4
      rcases hor with h5 | h5 | h5 | h5 <;> omega

/-- Concrete witness for the element-access theorem: in-range access on a
2-row, 3-column array returns the stored element. -/
theorem rect_array_access_witness :
    (⟨1, 2, 1, 3, fun _ _ => (7 : Int)⟩ : gbtRectArray Int).getEntry 2 3 =
      Except.ok 7 :=
  (rect_array_access ⟨1, 2, 1, 3, fun _ _ => (7 : Int)⟩ 2 3).2
    (by decide) (by decide) (by decide) (by decide)

/-- A rectangular array whose cells may be uninitialized (`none`): the
freshly allocated `tmp` of `Transpose` before any assignment. -/
structure gbtRectArrayOpt (T : Type) where
  minrow : Int
  maxrow : Int
  mincol : Int
  maxcol : Int
  data : Int → Int → Option T

/-- The bounds-checked write `tmp(j, i) = v` (non-const `operator()` used as
an lvalue): raises on an out-of-range index pair, otherwise stores the
value. -/
def gbtRectArrayOpt.setEntry (A : gbtRectArrayOpt T) (r c : Int) (v : T) :
    Except gbtException (gbtRectArrayOpt T) :=
  if decide (A.minrow ≤ r) && decide (r ≤ A.maxrow) &&
      (decide (A.mincol ≤ c) && decide (c ≤ A.maxcol)) then
    Except.ok { A with data := fun i j => if i = r ∧ j = c then some v else A.data i j }
  else Except.error gbtException.index

/-- The integer range `lo, lo+1, ..., hi` of a `for (int k = lo; k <= hi;
k++)` loop. -/
def intRange (lo hi : Int) : List Int :=
  (List.range (hi + 1 - lo).toNat).map (fun k => lo + k)

/-- `gbtRectArray<T>::Transpose() const`, exactly as written in the source:
`tmp` has the row and column bounds swapped, the outer loop runs
`i = minrow .. maxrow`, and the inner loop runs `j = mincol .. maxrow` —
the source's inner bound really is `maxrow`, not `maxcol`. -/
def gbtRectArray.Transpose (A : gbtRectArray T) :
    Except gbtException (gbtRectArrayOpt T) :=
  let init : gbtRectArrayOpt T :=
    ⟨A.mincol, A.maxcol, A.minrow, A.maxrow, fun _ _ => none⟩
  (intRange A.minrow A.maxrow).foldlM (fun tmp i =>
    (intRange A.mincol A.maxrow).foldlM (fun tmp2 j =>
      match A.getEntry i j with
      | Except.error e => Except.error e
      | Except.ok v => tmp2.setEntry j i v) tmp) init

/-- C10 (code bug): on the 2-row, 1-column array with bounds
`[1,2] × [1,1]`, `Transpose` raises `gbtIndexException` instead of
succeeding — the inner loop `for (j = mincol; j <= maxrow; j++)` reads
`(*this)(1, 2)`, which is out of column range; and on the 1-row, 2-column
array with bounds `[1,1] × [1,2]` it succeeds but never assigns the
transposed entry at `(2, 1)`, leaving it uninitialized instead of equal to
the source entry at `(1, 2)`. -/
theorem transpose_loop_bound_bug :
    (⟨1, 2, 1, 1, fun i j => 10 * i + j⟩ : gbtRectArray Int).Transpose =
      Except.error gbtException.index ∧
    (match (⟨1, 1, 1, 2, fun i j => 10 * i + j⟩ : gbtRectArray Int).Transpose with
      | Except.ok t => t.data 2 1
      | Except.error _ => some 0) = none :=
  ⟨rfl, rfl⟩
